import Mathlib

set_option maxRecDepth 8000

/-!
Shallow embedding of `src/Mineable Token/xelis_contract_miner_sha256.py`.

Bytes are modelled as `Nat` values (< 256 where the source guarantees it),
byte strings as `List Nat`.  Python's unbounded `int` is `Int` (or `Nat`
where the source value is known nonnegative).  Fallible operations
(`struct.pack`, `int.to_bytes`, division by zero, JSON field access) return
`Option`.  The cryptographic primitives SHA3-256 and BLAKE3 are external
libraries, so they are parameters (arbitrary functions `List Nat → List Nat`);
every theorem about the hashing pipeline holds for any choice of primitive.
-/

namespace XelisMiner

/-- Little-endian byte encoding: `le_bytes k n` is the `k` low-order bytes of
`n`, least significant first (the byte layout produced by `struct.pack "<Q"`
and `int.to_bytes(k, "little")`). -/
def le_bytes : Nat → Nat → List Nat
  | 0, _ => []
  | k + 1, n => (n % 256) :: le_bytes k (n / 256)

/-- `struct.pack("<Q", n)`: 8 little-endian bytes; raises `struct.error`
(modelled as `none`) when `n` does not fit in an unsigned 64-bit value. -/
def pack_le_u64 (n : Nat) : Option (List Nat) :=
  if n < 2 ^ 64 then some (le_bytes 8 n) else none

/-- `difficulty.to_bytes(32, "little")`: raises `OverflowError` (modelled as
`none`) when the integer is negative or does not fit in 32 bytes. -/
def int_to_bytes_le_32 (d : Int) : Option (List Nat) :=
  if 0 ≤ d ∧ d < 2 ^ 256 then some (le_bytes 32 d.toNat) else none

/-- `int.from_bytes(b)` with the (Python ≥ 3.11) default byteorder "big". -/
def from_bytes_be (l : List Nat) : Nat :=
  l.foldl (fun acc b => acc * 256 + b) 0

/-- `MAX_TARGET = (1 << 256) - 1` (source line 57). -/
def MAX_TARGET : Int := 2 ^ 256 - 1

/-- `meets_difficulty` (source lines 183-186): interpret the final hash as a
big-endian unsigned integer, divide `MAX_TARGET` by the difficulty with
Python floor division (`//`, i.e. `Int.fdiv`), and compare.  Division by
zero raises `ZeroDivisionError`, modelled as `none`. -/
def meets_difficulty (final_hash : List Nat) (difficulty : Int) : Option Bool :=
  if difficulty = 0 then none
  else
    some (decide ((from_bytes_be final_hash : Int) ≤ MAX_TARGET.fdiv difficulty))

/-- `sha3_256d` (source lines 162-164): double application of SHA3-256, the
primitive being an arbitrary parameter `sha3h`. -/
def sha3_256d (sha3h : List Nat → List Nat) (data : List Nat) : List Nat :=
  sha3h (sha3h data)

/-- `generate_header_hash` (source lines 167-180): builds the header by
successive concatenation exactly as the source does (`header = b""` then five
`header +=` statements) and applies BLAKE3 (parameter `blake3h`) once. -/
def generate_header_hash (blake3h : List Nat → List Nat) (block_number : Nat)
    (miner : List Nat) (difficulty : Int) (prev_hash : List Nat) (ts : Nat) :
    Option (List Nat) :=
  match pack_le_u64 block_number with
  | none => none
  | some h1 =>
    match int_to_bytes_le_32 difficulty with
    | none => none
    | some hd =>
      match pack_le_u64 ts with
      | none => none
      | some h5 =>
        let header : List Nat := []
        let header := header ++ h1
        let header := header ++ miner
        let header := header ++ hd
        let header := header ++ prev_hash
        let header := header ++ h5
        some (blake3h header)

/-- The final-hash computation of the hot mining loop (source lines 278-279):
`data = header_hash + struct.pack("<Q", nonce); final_hash = sha3_256d(data)`. -/
def compute_final_hash (sha3h : List Nat → List Nat) (header_hash : List Nat)
    (nonce : Nat) : Option (List Nat) :=
  match pack_le_u64 nonce with
  | none => none
  | some nb => some (sha3_256d sha3h (header_hash ++ nb))

theorem le_bytes_length (k n : Nat) : (le_bytes k n).length = k := by
  induction k generalizing n with
  | zero => rfl
  | succ k ih => simp [le_bytes, ih]

/-- A positive `Int` floor-divided by a negative `Int` is negative. -/
theorem fdiv_neg_of_pos_of_neg (a b : Int) (ha : 0 < a) (hb : b < 0) :
    a.fdiv b < 0 := by
  obtain ⟨n, rfl⟩ := Int.eq_negSucc_of_lt_zero hb
  obtain ⟨m, rfl⟩ : ∃ m : Nat, a = ((m + 1 : Nat) : Int) := ⟨a.toNat - 1, by omega⟩
  show Int.fdiv (Int.ofNat (m + 1)) (Int.negSucc n) < 0
  exact Int.negSucc_lt_zero _

theorem from_bytes_be_lt (l : List Nat) (hb : ∀ b ∈ l, b < 256) :
    from_bytes_be l < 256 ^ l.length := by
  suffices h : ∀ acc, l.foldl (fun a b => a * 256 + b) acc < (acc + 1) * 256 ^ l.length by
    have h0 := h 0
    simp only [Nat.zero_add, Nat.one_mul] at h0
    simp only [from_bytes_be]
    exact h0
  induction l with
  | nil =>
    intro acc
    simp only [List.foldl_nil, List.length_nil, pow_zero, Nat.mul_one]
    exact Nat.lt_succ_self acc
  | cons x xs ih =>
    intro acc
    have hx : x < 256 := hb x (by simp)
    have hxs : ∀ b ∈ xs, b < 256 := fun b hbmem => hb b (by simp [hbmem])
    have step := ih hxs (acc * 256 + x)
    calc (x :: xs).foldl (fun a b => a * 256 + b) acc
        = xs.foldl (fun a b => a * 256 + b) (acc * 256 + x) := by simp [List.foldl]
      _ < (acc * 256 + x + 1) * 256 ^ xs.length := step
      _ ≤ (acc + 1) * 256 ^ (x :: xs).length := by
          have h1 : acc * 256 + x + 1 ≤ (acc + 1) * 256 := by omega
          calc (acc * 256 + x + 1) * 256 ^ xs.length
              ≤ ((acc + 1) * 256) * 256 ^ xs.length :=
                Nat.mul_le_mul_right _ h1
            _ = (acc + 1) * 256 ^ (x :: xs).length := by
                simp [List.length_cons, Nat.pow_succ]; ring

/-- C1 (counterexample): at `difficulty = -1 < 1` the source `meets_difficulty`
does not fail: it returns the ordinary value `False` (the floored target is
negative), refuting "when difficulty < 1 it fails with InvalidDifficulty". -/
theorem meets_difficulty_negative_no_failure :
    meets_difficulty (List.replicate 32 0) (-1) ≠ none ∧
      meets_difficulty (List.replicate 32 0) (-1) = some false := by
  constructor
  · decide
  · decide

/-- C1 (amended): `meets_difficulty` interprets the hash as a big-endian
unsigned integer and, for difficulty ≥ 1, returns `hashValue ≤ (2^256-1) / difficulty`
(ordinary truncating natural division); it fails (ZeroDivisionError) exactly at
difficulty = 0; a negative difficulty does not fail but yields `false`; and at
difficulty = 1 every 32-byte hash value is accepted. -/
theorem meets_difficulty_spec (fh : List Nat) (d : Int) :
    (1 ≤ d → meets_difficulty fh d =
        some (decide (from_bytes_be fh ≤ (2 ^ 256 - 1) / d.toNat))) ∧
    (d = 0 → meets_difficulty fh d = none) ∧
    (d < 0 → meets_difficulty fh d = some false) ∧
    (fh.length = 32 → (∀ b ∈ fh, b < 256) → meets_difficulty fh 1 = some true) := by
  have hM : MAX_TARGET = ((2 ^ 256 - 1 : Nat) : Int) := by
    unfold MAX_TARGET
    have h1 : (1 : Nat) ≤ 2 ^ 256 := Nat.one_le_two_pow
    push_cast [h1]
  refine ⟨?_, ?_, ?_, ?_⟩
  · intro hd
    have hne : d ≠ 0 := by omega
    have hcast : d = ((d.toNat : Nat) : Int) := by omega
    have hfd : MAX_TARGET.fdiv d = (((2 ^ 256 - 1) / d.toNat : Nat) : Int) := by
      rw [hM]
      conv_lhs => rw [hcast]
      exact (Int.ofNat_fdiv _ _).symm
    simp only [meets_difficulty, hne, if_false, hfd]
    congr 1
    rw [decide_eq_decide]
    exact Int.ofNat_le
  · intro hd
    simp [meets_difficulty, hd]
  · intro hd
    have hne : d ≠ 0 := by omega
    have htgt : MAX_TARGET.fdiv d < 0 := by
      apply fdiv_neg_of_pos_of_neg
      · unfold MAX_TARGET; positivity
      · exact hd
    have hno : ¬ ((from_bytes_be fh : Int) ≤ MAX_TARGET.fdiv d) := by
      intro hle
      have h0 : (0 : Int) ≤ (from_bytes_be fh : Int) := Int.ofNat_nonneg _
      omega
    simp [meets_difficulty, hne, hno]
  · intro hlen hb
    have hv := from_bytes_be_lt fh hb
    rw [hlen] at hv
    have h2 : from_bytes_be fh ≤ 2 ^ 256 - 1 := by
      have h256 : (256 : Nat) ^ 32 = 2 ^ 256 := by norm_num
      omega
    have hle : ((from_bytes_be fh : Nat) : Int) ≤ MAX_TARGET.fdiv 1 := by
      rw [Int.fdiv_one, hM]
      exact_mod_cast h2
    have hle2 : ((from_bytes_be fh : Nat) : Int) ≤ MAX_TARGET := by
      rw [← Int.fdiv_one MAX_TARGET]
      exact hle
    simp [meets_difficulty, hle, hle2]

/-- C1 (witness): the amended theorem applied at concrete inputs: a zero hash
with difficulty 2, the failure at difficulty 0, the negative case, and the
accept-everything case at difficulty 1. -/
theorem meets_difficulty_spec_witness :
    meets_difficulty (List.replicate 32 0) 2 =
        some (decide (from_bytes_be (List.replicate 32 0) ≤ (2 ^ 256 - 1) / (2 : Int).toNat)) ∧
    meets_difficulty (List.replicate 32 0) 0 = none ∧
    meets_difficulty (List.replicate 32 0) (-2) = some false ∧
    meets_difficulty (List.replicate 32 255) 1 = some true := by
  refine ⟨?_, ?_, ?_, ?_⟩
  · exact (meets_difficulty_spec (List.replicate 32 0) 2).1 (by norm_num)
  · exact (meets_difficulty_spec (List.replicate 32 0) 0).2.1 rfl
  · exact (meets_difficulty_spec (List.replicate 32 0) (-2)).2.2.1 (by norm_num)
  · exact (meets_difficulty_spec (List.replicate 32 255) 1).2.2.2 (by decide) (by decide)

/-- C6: `generate_header_hash` hashes exactly the concatenation, in fixed
order, of the little-endian 8-byte height, the miner address bytes, the
32-byte little-endian difficulty, the previous hash and the little-endian
8-byte timestamp, applying the header hash function (BLAKE3) exactly once;
being a pure function of its inputs it is deterministic, and the digest is
32 bytes whenever the primitive produces 32-byte outputs. -/
theorem generate_header_hash_spec (b3 : List Nat → List Nat) (bn : Nat)
    (miner : List Nat) (d : Int) (ph : List Nat) (ts : Nat)
    (h1 : bn < 2 ^ 64) (h2 : 0 ≤ d) (h3 : d < 2 ^ 256) (h4 : ts < 2 ^ 64) :
    generate_header_hash b3 bn miner d ph ts =
      some (b3 (le_bytes 8 bn ++ miner ++ le_bytes 32 d.toNat ++ ph ++ le_bytes 8 ts)) ∧
    ((∀ l, (b3 l).length = 32) →
      ∃ dig, generate_header_hash b3 bn miner d ph ts = some dig ∧ dig.length = 32) := by
  have hmain : generate_header_hash b3 bn miner d ph ts =
      some (b3 (le_bytes 8 bn ++ miner ++ le_bytes 32 d.toNat ++ ph ++ le_bytes 8 ts)) := by
    simp only [generate_header_hash, pack_le_u64, int_to_bytes_le_32]
    rw [if_pos h1, if_pos (⟨h2, h3⟩ : 0 ≤ d ∧ d < 2 ^ 256), if_pos h4]
    simp
  refine ⟨hmain, fun hlen => ⟨_, hmain, hlen _⟩⟩

/-- C6 (witness): the theorem applied at concrete inputs with a concrete
32-byte-output primitive. -/
theorem generate_header_hash_spec_witness :
    generate_header_hash (fun _ => List.replicate 32 0) 5 [7] 1 (List.replicate 32 9) 3 =
      some ((fun _ => List.replicate 32 0)
        (le_bytes 8 5 ++ [7] ++ le_bytes 32 (1 : Int).toNat ++ List.replicate 32 9 ++ le_bytes 8 3)) :=
  (generate_header_hash_spec (fun _ => List.replicate 32 0) 5 [7] 1 (List.replicate 32 9) 3
    (by norm_num) (by norm_num) (by norm_num) (by norm_num)).1

/-- C7: for every nonce below 2^64, the hot-loop final hash is the double
application of the SHA3-256 primitive to the concatenation of the header
digest with the little-endian 8-byte nonce; as a pure function it is
deterministic. -/
theorem compute_final_hash_spec (s3 : List Nat → List Nat) (hd : List Nat)
    (nonce : Nat) (h : nonce < 2 ^ 64) :
    compute_final_hash s3 hd nonce = some (s3 (s3 (hd ++ le_bytes 8 nonce))) := by
  simp only [compute_final_hash, pack_le_u64, sha3_256d]
  rw [if_pos h]

/-- C7 (witness): the theorem applied at a concrete header digest and nonce
with a concrete primitive. -/
theorem compute_final_hash_spec_witness :
    compute_final_hash (fun l => 1 :: l) (List.replicate 32 0) 42 =
      some ((fun l => 1 :: l) ((fun l => 1 :: l) (List.replicate 32 0 ++ le_bytes 8 42))) :=
  compute_final_hash_spec (fun l => 1 :: l) (List.replicate 32 0) 42 (by norm_num)

/-! ### Address decoding (`decode_xet_address`, source lines 30-54) -/

/-- The Bech32 charset string of the source. -/
def bech32_charset : List Char := "qpzry9x8gf2tvdw0s3jn54khce6mua7l".toList

/-- `charset.index(c)` with a running index; `none` models the `ValueError`
raised by `str.index` when the character is absent. -/
def charset_index_from : List Char → Char → Nat → Option Nat
  | [], _, _ => none
  | x :: rest, c, i => if x = c then some i else charset_index_from rest c (i + 1)

/-- `[charset.index(c) for c in data_part]`: any invalid character aborts
(the list comprehension raises). -/
def map_charset : List Char → Option (List Nat)
  | [] => some []
  | c :: rest =>
    match charset_index_from bech32_charset c 0 with
    | none => none
    | some v =>
      match map_charset rest with
      | none => none
      | some vs => some (v :: vs)

/-- The 5-bit → 8-bit regrouping loop of the source (`acc`, `bits`,
`result`).  Since `bits` stays below 8 and each character adds 5 bits, the
inner `while bits >= 8` loop of the source runs at most once per character,
which is what this single conditional emission implements.
`(acc << 5) | value` is `acc * 32 + value` for `value < 32`, and
`(acc >> bits) & 0xFF` is `acc / 2 ^ bits % 256`. -/
def convert_bits : List Nat → Nat → Nat → List Nat
  | [], _, _ => []
  | v :: rest, acc, bits =>
    let acc2 := acc * 32 + v
    let bits2 := bits + 5
    if 8 ≤ bits2 then
      (acc2 / 2 ^ (bits2 - 8) % 256) :: convert_bits rest acc2 (bits2 - 8)
    else
      convert_bits rest acc2 bits2

/-- `address.split(':')` on the character list: splits at every colon,
keeping empty parts, exactly like Python `str.split` with an explicit
separator. -/
def split_colon : List Char → List (List Char)
  | [] => [[]]
  | c :: rest =>
    if c = ':' then [] :: split_colon rest
    else
      match split_colon rest with
      | [] => [[c]]
      | part :: parts => (c :: part) :: parts

/-- The body of `decode_xet_address` after the split:
`_, data_part = address.split(':')` raises (`none`) unless the split has
exactly two parts; then the 5-bit values are regrouped and the result is
`[0] + result[:33]`. -/
def decode_parts : List (List Char) → Option (List Nat)
  | [_, data_part] =>
    match map_charset data_part with
    | none => none
    | some data5 => some (0 :: (convert_bits data5 0 0).take 33)
  | _ => none

/-- `decode_xet_address` (source lines 30-54). -/
def decode_xet_address (address : String) : Option (List Nat) :=
  decode_parts (split_colon address.toList)

theorem convert_bits_length (vs : List Nat) (acc bits : Nat) (hb : bits < 8) :
    (convert_bits vs acc bits).length = (5 * vs.length + bits) / 8 := by
  induction vs generalizing acc bits with
  | nil =>
    simp only [convert_bits, List.length_nil, Nat.mul_zero, Nat.zero_add]
    exact (Nat.div_eq_of_lt hb).symm
  | cons v rest ih =>
    simp only [convert_bits, List.length_cons]
    by_cases h8 : 8 ≤ bits + 5
    · rw [if_pos h8]
      simp only [List.length_cons, ih _ (bits + 5 - 8) (by omega)]
      have hrw : 5 * rest.length + (bits + 5 - 8) + 8 = 5 * (rest.length + 1) + bits := by
        omega
      calc (5 * rest.length + (bits + 5 - 8)) / 8 + 1
          = (5 * rest.length + (bits + 5 - 8) + 8) / 8 := by
            rw [Nat.add_div_right _ (by norm_num)]
        _ = (5 * (rest.length + 1) + bits) / 8 := by rw [hrw]
    · rw [if_neg h8]
      rw [ih _ (bits + 5) (by omega)]
      congr 1
      omega

theorem map_charset_length (cs : List Char) (vs : List Nat)
    (h : map_charset cs = some vs) : vs.length = cs.length := by
  induction cs generalizing vs with
  | nil =>
    simp only [map_charset, Option.some.injEq] at h
    simp [← h]
  | cons c rest ih =>
    simp only [map_charset] at h
    cases hidx : charset_index_from bech32_charset c 0 with
    | none => rw [hidx] at h; exact absurd h (by simp)
    | some v =>
      rw [hidx] at h
      cases hrec : map_charset rest with
      | none => rw [hrec] at h; exact absurd h (by simp)
      | some ws =>
        rw [hrec] at h
        simp only [Option.some.injEq] at h
        subst h
        simp [ih ws hrec]

/-- C8 (counterexample): the example address documented in the source's own
CLI help text decodes to 34 bytes, not 33. -/
theorem decode_example_address_34_bytes :
    (decode_xet_address
        "xet:4cka26kpvq6nj93lguycywn8flccvrf537dzqa0x0jyhawddepfsqtka05w").map
      List.length = some 34 := by
  decide

/-- C8 (amended): every accepted address decodes to a byte list of length
`1 + min (5·n / 8) 33` where `n` is the length of the data part after the
colon: a 1-byte zero prefix followed by the first `min (5·n / 8) 33` bytes
of the 5-to-8-bit regrouped payload.  For the standard 59-character data
part of XELIS addresses this is 34 bytes (prefix + 33 payload bytes), not
33 as claimed. -/
theorem decode_xet_address_length (address : String) (l : List Nat)
    (pre data : List Char) (hsplit : split_colon address.toList = [pre, data])
    (h : decode_xet_address address = some l) :
    l.length = 1 + min (5 * data.length / 8) 33 := by
  unfold decode_xet_address at h
  rw [hsplit] at h
  simp only [decode_parts] at h
  cases hmc : map_charset data with
  | none => rw [hmc] at h; exact absurd h (by simp)
  | some data5 =>
    rw [hmc] at h
    simp only [Option.some.injEq] at h
    subst h
    have hlen := convert_bits_length data5 0 0 (by norm_num)
    have hml := map_charset_length data data5 hmc
    simp only [List.length_cons, List.length_take, hlen, hml, Nat.add_zero]
    omega

/-- C8 (witness): the amended theorem applied to the documented example
address: 59 data characters give `1 + min 36 33 = 34` bytes. -/
theorem decode_xet_address_length_witness :
    ∃ l, decode_xet_address
        "xet:4cka26kpvq6nj93lguycywn8flccvrf537dzqa0x0jyhawddepfsqtka05w" = some l ∧
      l.length = 1 + min
        (5 * "4cka26kpvq6nj93lguycywn8flccvrf537dzqa0x0jyhawddepfsqtka05w".toList.length / 8)
        33 := by
  cases h : decode_xet_address
      "xet:4cka26kpvq6nj93lguycywn8flccvrf537dzqa0x0jyhawddepfsqtka05w" with
  | none => exact absurd h (by decide)
  | some l =>
    exact ⟨l, rfl, decode_xet_address_length _ l "xet".toList
      "4cka26kpvq6nj93lguycywn8flccvrf537dzqa0x0jyhawddepfsqtka05w".toList (by decide) h⟩

/-! ### JSON-ish Python values and `parse_contract_error` (source lines 130-156) -/

/-- A Python/JSON value as seen by the miner: `bool` is kept separate from
`int` because `isinstance(x, bool)` distinguishes them, while `True == 1`
and `isinstance(True, int)` still hold. -/
inductive PyVal where
  | int_ (n : Int)
  | bool_ (b : Bool)
  | str_ (s : String)
  | dict (fields : List (String × PyVal))
  | list_ (xs : List PyVal)
  | null

/-- First-match field lookup in a dict (JSON objects parsed by `json.loads`
have distinct keys, so first match is the dict lookup). -/
def dict_lookup : List (String × PyVal) → String → Option PyVal
  | [], _ => none
  | (k, v) :: rest, key => if k = key then some v else dict_lookup rest key

/-- Bool test whether exactly the list `needle` occurs contiguously in
`hay` (Python's `needle in hay` on strings). -/
def list_has_run (needle : List Char) : List Char → Bool
  | [] => needle.isEmpty
  | c :: rest =>
    (decide (needle.isPrefixOf (c :: rest))) || list_has_run needle rest

/-- Python `needle in hay` for strings. -/
def str_has_run (needle hay : String) : Bool :=
  list_has_run needle.toList hay.toList

/-- Python `key in container`: membership for dicts, substring for strings,
element equality for lists; `none` models the `TypeError` raised on any
other type. -/
def py_contains (container : PyVal) (key : String) : Option Bool :=
  match container with
  | PyVal.dict fs => some (fs.any (fun p => p.1 == key))
  | PyVal.str_ s => some (str_has_run key s)
  | PyVal.list_ xs =>
    some (xs.any (fun v => match v with | PyVal.str_ t => t == key | _ => false))
  | _ => none

/-- Python `container[key]` with a string key: only dicts support it;
`none` models `TypeError`/`KeyError`. -/
def py_getitem (container : PyVal) (key : String) : Option PyVal :=
  match container with
  | PyVal.dict fs => dict_lookup fs key
  | _ => none

/-- Python `isinstance(x, int)` plus conversion: bools count as ints
(`True == 1`, `False == 0`). -/
def as_int : PyVal → Option Int
  | PyVal.int_ n => some n
  | PyVal.bool_ b => some (if b then 1 else 0)
  | _ => none

/-- The return-code extraction of `parse_contract_error` (source lines
141-149).  Outer `none` models an exception swallowed by the bare
`except: pass` (which makes the function return `None`); `some none`
models the explicit `return None` when no key is recognized; `some (some v)`
is the extracted `return_code` value. -/
def extract_return_code (result : PyVal) : Option (Option PyVal) :=
  match result with
  | PyVal.dict fs =>
    match dict_lookup fs "tx" with
    | some tx =>
      match py_contains tx "result" with
      | none => none
      | some true =>
        match py_getitem tx "result" with
        | some v => some (some v)
        | none => none
      | some false =>
        match dict_lookup fs "result" with
        | some v => some (some v)
        | none =>
          match dict_lookup fs "return_value" with
          | some v => some (some v)
          | none => some none
    | none =>
      match dict_lookup fs "result" with
      | some v => some (some v)
      | none =>
        match dict_lookup fs "return_value" with
        | some v => some (some v)
        | none => some none
  | _ => some none

/-- The `error_codes` table of `parse_contract_error` (source lines
132-138) together with the `dict.get` fallback message. -/
def error_message (c : Int) : String :=
  if c = 0 then "✅ Success - Block mined!"
  else if c = 1 then "⚠️ Max supply reached - Mining complete"
  else if c = 2 then "❌ Timestamp out of bounds (must be: now-30 <= ts <= now+5)"
  else if c = 3 then "❌ Timestamp is stale (ts <= last_time)"
  else if c = 4 then "❌ PoW verification failed (hash doesn\x27t meet difficulty)"
  else "❓ Unknown return code: " ++ toString c

/-- `parse_contract_error` (source lines 130-156): extract the return code;
if it is an int (bools included), map it through `error_codes`; otherwise
return `None`. -/
def parse_contract_error (result : PyVal) : Option String :=
  match extract_return_code result with
  | some (some rc) =>
    match as_int rc with
    | some c => some (error_message c)
    | none => none
  | _ => none

/-- The interpreted return code carried by a submission result. -/
def code_of (result : PyVal) : Option Int :=
  match extract_return_code result with
  | some (some rc) => as_int rc
  | _ => none

/-- The miner's decision after a submission (source lines 286-302): a raised
submission exception (`none`) is swallowed; otherwise the process exits iff
the parsed message contains "Max supply reached". -/
def terminate_decision (res : Option PyVal) : Bool :=
  match res with
  | none => false
  | some r =>
    match parse_contract_error r with
    | none => false
    | some msg => str_has_run "Max supply reached" msg

theorem parse_contract_error_eq_code (r : PyVal) :
    parse_contract_error r = (code_of r).map error_message := by
  unfold parse_contract_error code_of
  cases hx : extract_return_code r with
  | none => rfl
  | some o =>
    cases o with
    | none => rfl
    | some rc =>
      show (match as_int rc with
            | some c => some (error_message c)
            | none => none) = Option.map error_message (as_int rc)
      cases hi : as_int rc <;> rfl

theorem terminate_decision_iff (res : Option PyVal)
    (hrec : ∀ c, res.bind code_of = some c →
      c = 0 ∨ c = 1 ∨ c = 2 ∨ c = 3 ∨ c = 4) :
    terminate_decision res = true ↔ res.bind code_of = some 1 := by
  cases res with
  | none =>
    rw [show terminate_decision none = false from rfl]
    simp
  | some r =>
    show (match parse_contract_error r with
          | none => false
          | some msg => str_has_run "Max supply reached" msg) = true ↔
        (some r).bind code_of = some 1
    rw [parse_contract_error_eq_code]
    show _ ↔ code_of r = some 1
    cases hc : code_of r with
    | none =>
      show false = true ↔ (none : Option Int) = some 1
      decide
    | some c =>
      have h5 := hrec c (by simpa using hc)
      show str_has_run "Max supply reached" (error_message c) = true ↔
          (some c : Option Int) = some 1
      rcases h5 with h | h | h | h | h <;> subst h <;> decide

/-! ### The mining state machine (`mine_loop`, source lines 227-323, and
`listen_contract_events`, source lines 329-375)

The two threads communicate through `MiningState` (source lines 192-206):
the `restart_event` threading `Event` and the `awaiting_confirmation` flag,
both folded into one global state together with the miner's local
variables.  Each transition is one atomic region of the source: the regions
that hold `state.lock` are single steps, and the lock-free hot-loop
iteration is a single step (it touches no shared data except reading
`restart_event` and, on the report path, setting it).  Inputs coming from
the outside world (chain state queries, wall-clock time, randomness,
submission results, websocket messages) are supplied by the environment of
each step. -/

/-- Program counter of the miner thread.
`waitRestart` = blocked at `state.restart_event.wait()` (line 235);
`checkAwait` = about to take the lock and sync (lines 239-265);
`searching` = inside the hot loop (lines 276-323);
`submitted` = solution submitted, about to set the flag (lines 305-311);
`crashed` = an uncaught exception escaped the hot loop (which is outside
the `try`), killing the miner thread;
`terminated` = `sys.exit(0)` on the max-supply response (line 298). -/
inductive PC where
  | waitRestart
  | checkAwait
  | searching
  | submitted
  | crashed
  | terminated
  deriving DecidableEq

/-- Global state: the two shared coordination fields of `MiningState`, the
chain parameters, and the miner thread's local variables. -/
structure GState where
  restartEvent : Bool
  awaiting : Bool
  pc : PC
  blockNumber : Nat
  difficulty : Int
  prevHash : List Nat
  ts : Nat
  headerHash : List Nat
  nonce : Nat
  pendingResult : Option (Option PyVal)
  subCount : Nat

/-- `MiningState.__init__` (source lines 193-203) plus the miner thread
parked at the top of its loop: the restart event starts set, the flag
clear. -/
def initState (t0 : Nat) : GState :=
  { restartEvent := true
    awaiting := false
    pc := PC.waitRestart
    blockNumber := 0
    difficulty := 1
    prevHash := List.replicate 32 0
    ts := t0
    headerHash := []
    nonce := 0
    pendingResult := none
    subCount := 0 }

/-- Static configuration: the two hash primitives, the decoded miner
address, and the configured contract target of the event listener. -/
structure Config where
  blake3h : List Nat → List Nat
  sha3h : List Nat → List Nat
  addressBytes : List Nat
  contractHash : String
  eventId : Int

/-- Environment inputs consumed by one miner step: the outcome of
`sync_chain_state` (`none` = exception), the wall clock, the randomness
behind `random.randint`, whether the hashrate-report branch fires on this
iteration (`local_hashes % 100000 == 0` and the interval elapsed), and the
outcome of `submit_solution` (`none` = exception). -/
structure MinerEnv where
  syncResult : Option (Nat × Int × List Nat)
  syncTs : Nat
  seed : Nat
  reportDue : Bool
  submitRes : Option PyVal

/-- `random.randint(a, b)`: an arbitrary integer in the inclusive range
`[a, b]`, modelled as a function of the hidden RNG state `seed` that is
surjective onto exactly that range. -/
def randint (a b seed : Nat) : Nat := a + seed % (b - a + 1)

/-- One step of the miner thread. -/
def minerStep (cfg : Config) (s : GState) (env : MinerEnv) : GState :=
  match s.pc with
  | PC.waitRestart =>
    if s.restartEvent then { s with pc := PC.checkAwait } else s
  | PC.checkAwait =>
    if s.awaiting then { s with pc := PC.waitRestart }
    else
      match env.syncResult with
      | none => { s with pc := PC.waitRestart }
      | some (b, d, p) =>
        match generate_header_hash cfg.blake3h b cfg.addressBytes d p env.syncTs with
        | none =>
          { s with blockNumber := b, difficulty := d, prevHash := p,
                   ts := env.syncTs, restartEvent := false, pc := PC.waitRestart }
        | some hh =>
          { s with blockNumber := b, difficulty := d, prevHash := p,
                   ts := env.syncTs, restartEvent := false,
                   headerHash := hh,
                   nonce := randint 0 (2 ^ 32) env.seed,
                   pc := PC.searching }
  | PC.searching =>
    if s.restartEvent then { s with pc := PC.waitRestart }
    else
      match pack_le_u64 s.nonce with
      | none => { s with pc := PC.crashed }
      | some nb =>
        match meets_difficulty (sha3_256d cfg.sha3h (s.headerHash ++ nb)) s.difficulty with
        | none => { s with pc := PC.crashed }
        | some true =>
          { s with subCount := s.subCount + 1,
                   pendingResult := some env.submitRes,
                   pc := PC.submitted }
        | some false =>
          if env.reportDue then
            { s with nonce := s.nonce + 1, restartEvent := true }
          else
            { s with nonce := s.nonce + 1 }
  | PC.submitted =>
    match s.pendingResult with
    | some res =>
      if terminate_decision res then
        { s with pc := PC.terminated, pendingResult := none }
      else
        { s with awaiting := true, restartEvent := false,
                 pendingResult := none, pc := PC.waitRestart }
    | none => s
  | PC.crashed => s
  | PC.terminated => s

/-- The event filter of `listen_contract_events` (source lines 350-366): a
notification triggers the restart exactly when it is a dict whose "result"
is a dict (not the boolean subscription acknowledgment), containing an
"event" dict with a "contract_event" dict whose "contract" equals the
configured contract hash and whose "id" equals the configured event id
(Python `==`, under which `True == 1`).  A message of any other shape is
skipped (or raises, which only reconnects), changing nothing. -/
def is_matching_event (contractHash : String) (eventId : Int) (data : PyVal) : Bool :=
  match data with
  | PyVal.dict fs =>
    match dict_lookup fs "result" with
    | some (PyVal.dict rs) =>
      match dict_lookup rs "event" with
      | some (PyVal.dict es) =>
        match dict_lookup es "contract_event" with
        | some (PyVal.dict is_) =>
          (match dict_lookup is_ "contract" with
           | some (PyVal.str_ c) => c == contractHash
           | _ => false) &&
          (match dict_lookup is_ "id" with
           | some (PyVal.int_ n) => n == eventId
           | some (PyVal.bool_ b) => (if b then (1 : Int) else 0) == eventId
           | _ => false)
        | _ => false
      | _ => false
    | _ => false
  | _ => false

/-- One step of the event-listener thread on receiving one websocket
message (source lines 365-370): on a matching contract event it clears
`awaiting_confirmation` under the lock and sets the restart event;
otherwise (mismatch, acknowledgment, malformed message, transport error
and reconnect) the shared state is untouched. -/
def listenerStep (cfg : Config) (s : GState) (msg : PyVal) : GState :=
  if is_matching_event cfg.contractHash cfg.eventId msg then
    { s with awaiting := false, restartEvent := true }
  else s

/-- A scheduler choice: which thread runs, with its environment input. -/
inductive Action where
  | miner (env : MinerEnv)
  | listener (msg : PyVal)

/-- Interleaving semantics of the two threads. -/
def step (cfg : Config) (s : GState) (a : Action) : GState :=
  match a with
  | Action.miner env => minerStep cfg s env
  | Action.listener msg => listenerStep cfg s msg

/-- States reachable from startup under any schedule and any environment. -/
inductive Reachable (cfg : Config) (t0 : Nat) : GState → Prop where
  | init : Reachable cfg t0 (initState t0)
  | next {s : GState} (a : Action) :
      Reachable cfg t0 s → Reachable cfg t0 (step cfg s a)

/-- Inductive invariant: while the miner is searching or handling a found
solution, `awaiting_confirmation` is down (only the miner raises it, and it
does so when leaving `submitted`). -/
def SearchInv (s : GState) : Prop :=
  (s.pc = PC.searching ∨ s.pc = PC.submitted) → s.awaiting = false

/-! Step characterization lemmas: one per atomic region of the source. -/

theorem minerStep_waitRestart {cfg : Config} {s : GState} {env : MinerEnv}
    (h : s.pc = PC.waitRestart) :
    minerStep cfg s env =
      if s.restartEvent then { s with pc := PC.checkAwait } else s := by
  unfold minerStep; rw [h]

theorem minerStep_checkAwait_awaiting {cfg : Config} {s : GState} {env : MinerEnv}
    (h : s.pc = PC.checkAwait) (ha : s.awaiting = true) :
    minerStep cfg s env = { s with pc := PC.waitRestart } := by
  unfold minerStep; rw [h]; simp [ha]

theorem minerStep_checkAwait_syncFail {cfg : Config} {s : GState} {env : MinerEnv}
    (h : s.pc = PC.checkAwait) (ha : s.awaiting = false)
    (hsy : env.syncResult = none) :
    minerStep cfg s env = { s with pc := PC.waitRestart } := by
  unfold minerStep; rw [h]; simp [ha, hsy]

theorem minerStep_checkAwait_headerFail {cfg : Config} {s : GState} {env : MinerEnv}
    {b : Nat} {d : Int} {p : List Nat}
    (h : s.pc = PC.checkAwait) (ha : s.awaiting = false)
    (hsy : env.syncResult = some (b, d, p))
    (hg : generate_header_hash cfg.blake3h b cfg.addressBytes d p env.syncTs = none) :
    minerStep cfg s env =
      { s with blockNumber := b, difficulty := d, prevHash := p,
               ts := env.syncTs, restartEvent := false, pc := PC.waitRestart } := by
  unfold minerStep; rw [h]; simp [ha, hsy, hg]

theorem minerStep_checkAwait_syncOk {cfg : Config} {s : GState} {env : MinerEnv}
    {b : Nat} {d : Int} {p hh : List Nat}
    (h : s.pc = PC.checkAwait) (ha : s.awaiting = false)
    (hsy : env.syncResult = some (b, d, p))
    (hg : generate_header_hash cfg.blake3h b cfg.addressBytes d p env.syncTs = some hh) :
    minerStep cfg s env =
      { s with blockNumber := b, difficulty := d, prevHash := p,
               ts := env.syncTs, restartEvent := false, headerHash := hh,
               nonce := randint 0 (2 ^ 32) env.seed, pc := PC.searching } := by
  unfold minerStep; rw [h]; simp [ha, hsy, hg]

theorem minerStep_searching_event {cfg : Config} {s : GState} {env : MinerEnv}
    (h : s.pc = PC.searching) (he : s.restartEvent = true) :
    minerStep cfg s env = { s with pc := PC.waitRestart } := by
  unfold minerStep; rw [h]; simp [he]

theorem minerStep_searching_packFail {cfg : Config} {s : GState} {env : MinerEnv}
    (h : s.pc = PC.searching) (he : s.restartEvent = false)
    (hp : pack_le_u64 s.nonce = none) :
    minerStep cfg s env = { s with pc := PC.crashed } := by
  unfold minerStep; rw [h]; simp [he, hp]

theorem minerStep_searching_diffCrash {cfg : Config} {s : GState} {env : MinerEnv}
    {nb : List Nat}
    (h : s.pc = PC.searching) (he : s.restartEvent = false)
    (hp : pack_le_u64 s.nonce = some nb)
    (hm : meets_difficulty (sha3_256d cfg.sha3h (s.headerHash ++ nb)) s.difficulty = none) :
    minerStep cfg s env = { s with pc := PC.crashed } := by
  unfold minerStep; rw [h]; simp [he, hp, hm]

theorem minerStep_searching_found {cfg : Config} {s : GState} {env : MinerEnv}
    {nb : List Nat}
    (h : s.pc = PC.searching) (he : s.restartEvent = false)
    (hp : pack_le_u64 s.nonce = some nb)
    (hm : meets_difficulty (sha3_256d cfg.sha3h (s.headerHash ++ nb)) s.difficulty = some true) :
    minerStep cfg s env =
      { s with subCount := s.subCount + 1, pendingResult := some env.submitRes,
               pc := PC.submitted } := by
  unfold minerStep; rw [h]; simp [he, hp, hm]

theorem minerStep_searching_miss {cfg : Config} {s : GState} {env : MinerEnv}
    {nb : List Nat}
    (h : s.pc = PC.searching) (he : s.restartEvent = false)
    (hp : pack_le_u64 s.nonce = some nb)
    (hm : meets_difficulty (sha3_256d cfg.sha3h (s.headerHash ++ nb)) s.difficulty = some false) :
    minerStep cfg s env =
      if env.reportDue then { s with nonce := s.nonce + 1, restartEvent := true }
      else { s with nonce := s.nonce + 1 } := by
  unfold minerStep; rw [h]; simp [he, hp, hm]

theorem minerStep_submitted {cfg : Config} {s : GState} {env : MinerEnv}
    {res : Option PyVal} (h : s.pc = PC.submitted)
    (hpr : s.pendingResult = some res) :
    minerStep cfg s env =
      if terminate_decision res then
        { s with pc := PC.terminated, pendingResult := none }
      else
        { s with awaiting := true, restartEvent := false,
                 pendingResult := none, pc := PC.waitRestart } := by
  unfold minerStep; rw [h]; simp [hpr]

theorem minerStep_submitted_nopending {cfg : Config} {s : GState} {env : MinerEnv}
    (h : s.pc = PC.submitted) (hpr : s.pendingResult = none) :
    minerStep cfg s env = s := by
  unfold minerStep; rw [h]; simp [hpr]

theorem minerStep_crashed {cfg : Config} {s : GState} {env : MinerEnv}
    (h : s.pc = PC.crashed) : minerStep cfg s env = s := by
  unfold minerStep; rw [h]

theorem minerStep_terminated {cfg : Config} {s : GState} {env : MinerEnv}
    (h : s.pc = PC.terminated) : minerStep cfg s env = s := by
  unfold minerStep; rw [h]

/-- Exhaustive case split on one miner step, as a disjunction of the
characterization lemmas.  Every record on the right spells out the `pc`
field explicitly. -/
theorem minerStep_cases (cfg : Config) (s : GState) (env : MinerEnv) :
    minerStep cfg s env = s ∨
    (s.pc = PC.waitRestart ∧
      minerStep cfg s env = { s with pc := PC.checkAwait }) ∨
    (s.pc = PC.checkAwait ∧
      minerStep cfg s env = { s with pc := PC.waitRestart }) ∨
    (s.pc = PC.checkAwait ∧ s.awaiting = false ∧ ∃ b d p,
      minerStep cfg s env =
        { s with blockNumber := b, difficulty := d, prevHash := p,
                 ts := env.syncTs, restartEvent := false, pc := PC.waitRestart }) ∨
    (s.pc = PC.checkAwait ∧ s.awaiting = false ∧ ∃ b d p hh,
      minerStep cfg s env =
        { s with blockNumber := b, difficulty := d, prevHash := p,
                 ts := env.syncTs, restartEvent := false, headerHash := hh,
                 nonce := randint 0 (2 ^ 32) env.seed, pc := PC.searching }) ∨
    (s.pc = PC.searching ∧
      minerStep cfg s env = { s with pc := PC.waitRestart }) ∨
    (s.pc = PC.searching ∧
      minerStep cfg s env = { s with pc := PC.crashed }) ∨
    (s.pc = PC.searching ∧
      minerStep cfg s env =
        { s with subCount := s.subCount + 1, pendingResult := some env.submitRes,
                 pc := PC.submitted }) ∨
    (s.pc = PC.searching ∧
      (minerStep cfg s env =
          { s with nonce := s.nonce + 1, restartEvent := true, pc := PC.searching } ∨
       minerStep cfg s env = { s with nonce := s.nonce + 1, pc := PC.searching })) ∨
    (s.pc = PC.submitted ∧
      minerStep cfg s env = { s with pc := PC.terminated, pendingResult := none }) ∨
    (s.pc = PC.submitted ∧
      minerStep cfg s env =
        { s with awaiting := true, restartEvent := false,
                 pendingResult := none, pc := PC.waitRestart }) := by
  cases hs : s.pc with
  | waitRestart =>
    by_cases he : s.restartEvent
    · refine Or.inr (Or.inl ⟨rfl, ?_⟩)
      rw [minerStep_waitRestart hs, if_pos he]
    · refine Or.inl ?_
      rw [minerStep_waitRestart hs, if_neg he]
  | checkAwait =>
    by_cases ha : s.awaiting
    · refine Or.inr (Or.inr (Or.inl ⟨rfl, ?_⟩))
      rw [minerStep_checkAwait_awaiting hs ha]
    · replace ha : s.awaiting = false := by simpa using ha
      cases hsy : env.syncResult with
      | none =>
        refine Or.inr (Or.inr (Or.inl ⟨rfl, ?_⟩))
        rw [minerStep_checkAwait_syncFail hs ha hsy]
      | some t =>
        obtain ⟨b, d, p⟩ := t
        cases hg : generate_header_hash cfg.blake3h b cfg.addressBytes d p env.syncTs with
        | none =>
          refine Or.inr (Or.inr (Or.inr (Or.inl ⟨rfl, ha, b, d, p, ?_⟩)))
          rw [minerStep_checkAwait_headerFail hs ha hsy hg]
        | some hh =>
          refine Or.inr (Or.inr (Or.inr (Or.inr (Or.inl ⟨rfl, ha, b, d, p, hh, ?_⟩))))
          rw [minerStep_checkAwait_syncOk hs ha hsy hg]
  | searching =>
    by_cases he : s.restartEvent
    · refine Or.inr (Or.inr (Or.inr (Or.inr (Or.inr (Or.inl ⟨rfl, ?_⟩)))))
      rw [minerStep_searching_event hs he]
    · replace he : s.restartEvent = false := by simpa using he
      cases hp : pack_le_u64 s.nonce with
      | none =>
        refine Or.inr (Or.inr (Or.inr (Or.inr (Or.inr (Or.inr (Or.inl ⟨rfl, ?_⟩))))))
        rw [minerStep_searching_packFail hs he hp]
      | some nb =>
        cases hm : meets_difficulty (sha3_256d cfg.sha3h (s.headerHash ++ nb)) s.difficulty with
        | none =>
          refine Or.inr (Or.inr (Or.inr (Or.inr (Or.inr (Or.inr (Or.inl ⟨rfl, ?_⟩))))))
          rw [minerStep_searching_diffCrash hs he hp hm]
        | some bo =>
          cases bo with
          | true =>
            refine Or.inr (Or.inr (Or.inr (Or.inr (Or.inr (Or.inr (Or.inr
              (Or.inl ⟨rfl, ?_⟩)))))))
            rw [minerStep_searching_found hs he hp hm]
          | false =>
            by_cases hrep : env.reportDue
            · refine Or.inr (Or.inr (Or.inr (Or.inr (Or.inr (Or.inr (Or.inr (Or.inr
                (Or.inl ⟨rfl, Or.inl ?_⟩))))))))
              rw [minerStep_searching_miss hs he hp hm, if_pos hrep, hs]
            · refine Or.inr (Or.inr (Or.inr (Or.inr (Or.inr (Or.inr (Or.inr (Or.inr
                (Or.inl ⟨rfl, Or.inr ?_⟩))))))))
              rw [minerStep_searching_miss hs he hp hm, if_neg hrep, hs]
  | submitted =>
    cases hpr : s.pendingResult with
    | none => exact Or.inl (minerStep_submitted_nopending hs hpr)
    | some res =>
      by_cases ht : terminate_decision res
      · refine Or.inr (Or.inr (Or.inr (Or.inr (Or.inr (Or.inr (Or.inr (Or.inr (Or.inr
          (Or.inl ⟨rfl, ?_⟩)))))))))
        rw [minerStep_submitted hs hpr, if_pos ht]
      · refine Or.inr (Or.inr (Or.inr (Or.inr (Or.inr (Or.inr (Or.inr (Or.inr (Or.inr
          (Or.inr ⟨rfl, ?_⟩)))))))))
        rw [minerStep_submitted hs hpr, if_neg ht]
  | crashed => exact Or.inl (minerStep_crashed hs)
  | terminated => exact Or.inl (minerStep_terminated hs)

theorem searchInv_reachable {cfg : Config} {t0 : Nat} {s : GState}
    (h : Reachable cfg t0 s) : SearchInv s := by
  induction h with
  | init => intro hpc; rcases hpc with h | h <;> cases h
  | next a hr ih =>
    rename_i s'
    cases a with
    | listener msg =>
      intro hpc
      show (listenerStep cfg s' msg).awaiting = false
      have hpc2 : (listenerStep cfg s' msg).pc = PC.searching ∨
          (listenerStep cfg s' msg).pc = PC.submitted := hpc
      unfold listenerStep at hpc2 ⊢
      by_cases hm : is_matching_event cfg.contractHash cfg.eventId msg
      · rw [if_pos hm]
      · rw [if_neg hm]
        rw [if_neg hm] at hpc2
        exact ih hpc2
    | miner env =>
      intro hpc
      show (minerStep cfg s' env).awaiting = false
      have hpc2 : (minerStep cfg s' env).pc = PC.searching ∨
          (minerStep cfg s' env).pc = PC.submitted := hpc
      rcases minerStep_cases cfg s' env with heq | ⟨h1, heq⟩ | ⟨h1, heq⟩ |
          ⟨h1, ha, b, d, p, heq⟩ | ⟨h1, ha, b, d, p, hh, heq⟩ | ⟨h1, heq⟩ |
          ⟨h1, heq⟩ | ⟨h1, heq⟩ | ⟨h1, heq | heq⟩ | ⟨h1, heq⟩ | ⟨h1, heq⟩ <;>
        rw [heq] at hpc2 ⊢
      · exact ih hpc2
      · rcases hpc2 with h2 | h2 <;> cases h2
      · rcases hpc2 with h2 | h2 <;> cases h2
      · rcases hpc2 with h2 | h2 <;> cases h2
      · exact ha
      · rcases hpc2 with h2 | h2 <;> cases h2
      · rcases hpc2 with h2 | h2 <;> cases h2
      · exact ih (Or.inl h1)
      · exact ih (Or.inl h1)
      · exact ih (Or.inl h1)
      · rcases hpc2 with h2 | h2 <;> cases h2
      · rcases hpc2 with h2 | h2 <;> cases h2

/-! ### Concrete fixtures used by the witnesses -/

/-- A concrete configuration whose hash primitives return an all-zero
32-byte digest, so the first hash attempt meets any positive difficulty. -/
def cfgW : Config :=
  { blake3h := fun _ => List.replicate 32 0
    sha3h := fun _ => List.replicate 32 0
    addressBytes := []
    contractHash := "c"
    eventId := 1 }

/-- A miner environment with no external input: sync fails, no report due,
submission raises. -/
def envIdle : MinerEnv :=
  { syncResult := none, syncTs := 0, seed := 0, reportDue := false,
    submitRes := none }

/-- A miner environment whose chain sync succeeds with height 0,
difficulty 1, zero previous hash. -/
def envSync : MinerEnv :=
  { syncResult := some (0, 1, List.replicate 32 0), syncTs := 0, seed := 0,
    reportDue := false, submitRes := none }

/-- A submission result carrying the supply-exhausted return code 1. -/
def resCode1 : PyVal := PyVal.dict [("result", PyVal.int_ 1)]

/-- A miner environment whose submission returns the code-1 result. -/
def envCode1 : MinerEnv :=
  { syncResult := none, syncTs := 0, seed := 0, reportDue := false,
    submitRes := some resCode1 }

/-- Startup, then the wait is released, then a successful sync: the miner
is searching with nonce 0 on difficulty 1. -/
def sSearching : GState :=
  step cfgW (step cfgW (initState 0) (Action.miner envIdle)) (Action.miner envSync)

/-- One more step: the all-zero hash meets difficulty 1, the solution is
submitted (the submission raises, which is swallowed). -/
def sSubmitted : GState := step cfgW sSearching (Action.miner envIdle)

/-- One more step: the miner sets `awaiting_confirmation` and parks. -/
def sAwait : GState := step cfgW sSubmitted (Action.miner envIdle)

/-- Like `sSubmitted` but the submission returned the code-1 result. -/
def sSubmittedCode1 : GState := step cfgW sSearching (Action.miner envCode1)

/-- C2: in every reachable state with `awaiting_confirmation` set, the
miner is not searching, and one more miner step — whatever the
environment, in particular with the restart signal set — neither enters
`Searching` nor refreshes any mining parameter. -/
theorem awaiting_blocks_search (cfg : Config) (t0 : Nat) (s : GState)
    (hr : Reachable cfg t0 s) (ha : s.awaiting = true) (env : MinerEnv) :
    s.pc ≠ PC.searching ∧
    (step cfg s (Action.miner env)).pc ≠ PC.searching ∧
    (step cfg s (Action.miner env)).blockNumber = s.blockNumber ∧
    (step cfg s (Action.miner env)).difficulty = s.difficulty ∧
    (step cfg s (Action.miner env)).prevHash = s.prevHash ∧
    (step cfg s (Action.miner env)).headerHash = s.headerHash := by
  have hin := searchInv_reachable hr
  have hns : s.pc ≠ PC.searching := by
    intro h
    have hfalse := hin (Or.inl h)
    rw [ha] at hfalse
    cases hfalse
  have hnb : s.pc ≠ PC.submitted := by
    intro h
    have hfalse := hin (Or.inr h)
    rw [ha] at hfalse
    cases hfalse
  refine ⟨hns, ?_⟩
  show (minerStep cfg s env).pc ≠ PC.searching ∧
    (minerStep cfg s env).blockNumber = s.blockNumber ∧
    (minerStep cfg s env).difficulty = s.difficulty ∧
    (minerStep cfg s env).prevHash = s.prevHash ∧
    (minerStep cfg s env).headerHash = s.headerHash
  rcases minerStep_cases cfg s env with heq | ⟨h1, heq⟩ | ⟨h1, heq⟩ |
      ⟨h1, ha2, b, d, p, heq⟩ | ⟨h1, ha2, b, d, p, hh, heq⟩ | ⟨h1, heq⟩ |
      ⟨h1, heq⟩ | ⟨h1, heq⟩ | ⟨h1, heq | heq⟩ | ⟨h1, heq⟩ | ⟨h1, heq⟩
  · rw [heq]; exact ⟨hns, rfl, rfl, rfl, rfl⟩
  · rw [heq]
    refine ⟨?_, rfl, rfl, rfl, rfl⟩
    intro hcontra
    exact PC.noConfusion hcontra
  · rw [heq]
    refine ⟨?_, rfl, rfl, rfl, rfl⟩
    intro hcontra
    exact PC.noConfusion hcontra
  · rw [ha] at ha2; cases ha2
  · rw [ha] at ha2; cases ha2
  · exact absurd h1 hns
  · exact absurd h1 hns
  · exact absurd h1 hns
  · exact absurd h1 hns
  · exact absurd h1 hns
  · exact absurd h1 hnb
  · exact absurd h1 hnb

/-- C2 (witness): the theorem applied to the concrete reachable state
reached after submitting a solution (`awaiting_confirmation = true`), with
the restart signal environment. -/
theorem awaiting_blocks_search_witness :
    sAwait.awaiting = true ∧
    sAwait.pc ≠ PC.searching ∧
    (step cfgW sAwait (Action.miner envSync)).pc ≠ PC.searching ∧
    (step cfgW sAwait (Action.miner envSync)).blockNumber = sAwait.blockNumber ∧
    (step cfgW sAwait (Action.miner envSync)).difficulty = sAwait.difficulty ∧
    (step cfgW sAwait (Action.miner envSync)).prevHash = sAwait.prevHash ∧
    (step cfgW sAwait (Action.miner envSync)).headerHash = sAwait.headerHash := by
  have hr : Reachable cfgW 0 sAwait :=
    Reachable.next (Action.miner envIdle)
      (Reachable.next (Action.miner envIdle)
        (Reachable.next (Action.miner envSync)
          (Reachable.next (Action.miner envIdle) Reachable.init)))
  exact ⟨by decide, awaiting_blocks_search cfgW 0 sAwait hr (by decide) envSync⟩

/-- C3: across every transition of the two components,
`awaiting_confirmation` flips false→true only on the miner step that leaves
`submitted` (immediately after a solution was submitted) and flips
true→false only on a listener step receiving a message that matches the
configured contract address and event id; a miner step taken while
searching — which includes the forced periodic refresh fired by the
hashrate-report path — never changes the flag. -/
theorem awaiting_single_writer (cfg : Config) (s : GState) (a : Action) :
    ((s.awaiting = false ∧ (step cfg s a).awaiting = true) →
      ∃ env, a = Action.miner env ∧ s.pc = PC.submitted ∧
        (step cfg s a).pc = PC.waitRestart) ∧
    ((s.awaiting = true ∧ (step cfg s a).awaiting = false) →
      ∃ msg, a = Action.listener msg ∧
        is_matching_event cfg.contractHash cfg.eventId msg = true) ∧
    (∀ env, a = Action.miner env → s.pc = PC.searching →
      (step cfg s a).awaiting = s.awaiting) := by
  cases a with
  | listener msg =>
    have hstep : step cfg s (Action.listener msg) = listenerStep cfg s msg := rfl
    refine ⟨?_, ?_, ?_⟩
    · rintro ⟨h0, h1⟩
      exfalso
      rw [hstep] at h1
      unfold listenerStep at h1
      by_cases hm : is_matching_event cfg.contractHash cfg.eventId msg
      · rw [if_pos hm] at h1
        exact Bool.noConfusion (show (false : Bool) = true from h1)
      · rw [if_neg hm] at h1
        rw [h0] at h1
        exact Bool.noConfusion h1
    · rintro ⟨h0, h1⟩
      by_cases hm : is_matching_event cfg.contractHash cfg.eventId msg
      · exact ⟨msg, rfl, hm⟩
      · exfalso
        rw [hstep] at h1
        unfold listenerStep at h1
        rw [if_neg hm] at h1
        rw [h0] at h1
        exact Bool.noConfusion h1
    · intro env2 henv
      cases henv
  | miner env =>
    have hsw : step cfg s (Action.miner env) = minerStep cfg s env := rfl
    refine ⟨?_, ?_, ?_⟩
    · rintro ⟨h0, h1⟩
      rw [hsw] at h1
      rcases minerStep_cases cfg s env with heq | ⟨hp, heq⟩ | ⟨hp, heq⟩ |
          ⟨hp, ha2, b, d, p, heq⟩ | ⟨hp, ha2, b, d, p, hh, heq⟩ | ⟨hp, heq⟩ |
          ⟨hp, heq⟩ | ⟨hp, heq⟩ | ⟨hp, heq | heq⟩ | ⟨hp, heq⟩ | ⟨hp, heq⟩ <;>
        rw [heq] at h1 <;>
        first
          | (exfalso
             have h1x : s.awaiting = true := h1
             rw [h0] at h1x
             exact Bool.noConfusion h1x)
          | exact ⟨env, rfl, hp, by rw [hsw, heq]⟩
    · rintro ⟨h0, h1⟩
      exfalso
      rw [hsw] at h1
      rcases minerStep_cases cfg s env with heq | ⟨hp, heq⟩ | ⟨hp, heq⟩ |
          ⟨hp, ha2, b, d, p, heq⟩ | ⟨hp, ha2, b, d, p, hh, heq⟩ | ⟨hp, heq⟩ |
          ⟨hp, heq⟩ | ⟨hp, heq⟩ | ⟨hp, heq | heq⟩ | ⟨hp, heq⟩ | ⟨hp, heq⟩ <;>
        rw [heq] at h1 <;>
        first
          | exact Bool.noConfusion (show (true : Bool) = false from h1)
          | (have h1x : s.awaiting = false := h1
             rw [h0] at h1x
             exact Bool.noConfusion h1x)
    · intro env2 henv hpc
      rw [hsw]
      rcases minerStep_cases cfg s env with heq | ⟨hp, heq⟩ | ⟨hp, heq⟩ |
          ⟨hp, ha2, b, d, p, heq⟩ | ⟨hp, ha2, b, d, p, hh, heq⟩ | ⟨hp, heq⟩ |
          ⟨hp, heq⟩ | ⟨hp, heq⟩ | ⟨hp, heq | heq⟩ | ⟨hp, heq⟩ | ⟨hp, heq⟩ <;>
        (rw [heq]
         all_goals (rw [hpc] at hp; exact absurd hp (by decide)))

/-- C3 (witness): the theorem applied to the concrete post-submission
transition: `awaiting_confirmation` flips false→true exactly on the miner
step leaving `submitted`. -/
theorem awaiting_single_writer_witness :
    ∃ env, Action.miner envIdle = Action.miner env ∧
      sSubmitted.pc = PC.submitted ∧
      (step cfgW sSubmitted (Action.miner envIdle)).pc = PC.waitRestart :=
  (awaiting_single_writer cfgW sSubmitted (Action.miner envIdle)).1 (by decide)

/-- C4 (counterexample): after a found solution whose submission succeeded
with the supply-exhausted return code 1, the miner terminates without ever
setting `awaiting_confirmation`, refuting "regardless of submission success
or failure the loop then sets awaitingConfirmation = true". -/
theorem submission_code1_skips_await :
    sSubmittedCode1.pc = PC.submitted ∧
    sSubmittedCode1.subCount = 1 ∧
    (step cfgW sSubmittedCode1 (Action.miner envIdle)).pc = PC.terminated ∧
    (step cfgW sSubmittedCode1 (Action.miner envIdle)).awaiting = false := by
  refine ⟨?_, ?_, ?_, ?_⟩ <;> decide

/-- C4 (amended): when a hash meeting the target is found, the miner calls
the submission gateway exactly once for that solution (the submission
counter rises by one on the found step and on no other kind of step); a
raised submission error is swallowed with no retry; and whenever the
submission outcome is not the terminal supply-exhausted response —
including any raised error — the following step sets
`awaiting_confirmation = true` and parks the loop awaiting the resume
signal.  (With the terminal code-1 response the process instead exits
without setting the flag; see the counterexample.) -/
theorem submit_once_then_await (cfg : Config) (s : GState) (env env2 : MinerEnv)
    (hpc : s.pc = PC.searching) (hev : s.restartEvent = false)
    (hn : s.nonce < 2 ^ 64)
    (hm : meets_difficulty (sha3_256d cfg.sha3h (s.headerHash ++ le_bytes 8 s.nonce))
        s.difficulty = some true)
    (hterm : terminate_decision env.submitRes = false) :
    ((step cfg s (Action.miner env)).subCount = s.subCount + 1 ∧
     (step cfg s (Action.miner env)).pc = PC.submitted ∧
     (step cfg s (Action.miner env)).pendingResult = some env.submitRes) ∧
    ((step cfg (step cfg s (Action.miner env)) (Action.miner env2)).awaiting = true ∧
     (step cfg (step cfg s (Action.miner env)) (Action.miner env2)).pc = PC.waitRestart ∧
     (step cfg (step cfg s (Action.miner env)) (Action.miner env2)).subCount
       = s.subCount + 1) ∧
    (∀ (t : GState) (e : MinerEnv), t.pc ≠ PC.searching →
      (step cfg t (Action.miner e)).subCount = t.subCount) := by
  have hp : pack_le_u64 s.nonce = some (le_bytes 8 s.nonce) := by
    unfold pack_le_u64
    rw [if_pos hn]
  have h1 : step cfg s (Action.miner env) =
      { s with subCount := s.subCount + 1, pendingResult := some env.submitRes,
               pc := PC.submitted } := minerStep_searching_found hpc hev hp hm
  refine ⟨?_, ?_, ?_⟩
  · rw [h1]
    exact ⟨rfl, rfl, rfl⟩
  · have h2 : step cfg (step cfg s (Action.miner env)) (Action.miner env2) =
        minerStep cfg (step cfg s (Action.miner env)) env2 := rfl
    rw [h2, minerStep_submitted (by rw [h1]) (by rw [h1]),
      if_neg (by rw [hterm]; exact Bool.noConfusion)]
    exact ⟨rfl, rfl, by rw [h1]⟩
  · intro t e hns
    show (minerStep cfg t e).subCount = t.subCount
    rcases minerStep_cases cfg t e with heq | ⟨hq, heq⟩ | ⟨hq, heq⟩ |
        ⟨hq, ha2, b, d, p, heq⟩ | ⟨hq, ha2, b, d, p, hh, heq⟩ | ⟨hq, heq⟩ |
        ⟨hq, heq⟩ | ⟨hq, heq⟩ | ⟨hq, heq | heq⟩ | ⟨hq, heq⟩ | ⟨hq, heq⟩ <;>
      (rw [heq]
       all_goals exact absurd hq hns)

/-- C4 (witness): the amended theorem applied to the concrete searching
state with a raising submission (swallowed), followed by the step that sets
the flag. -/
theorem submit_once_then_await_witness :
    ((step cfgW sSearching (Action.miner envIdle)).subCount
        = sSearching.subCount + 1 ∧
     (step cfgW sSearching (Action.miner envIdle)).pc = PC.submitted ∧
     (step cfgW sSearching (Action.miner envIdle)).pendingResult
        = some envIdle.submitRes) ∧
    ((step cfgW (step cfgW sSearching (Action.miner envIdle))
        (Action.miner envIdle)).awaiting = true ∧
     (step cfgW (step cfgW sSearching (Action.miner envIdle))
        (Action.miner envIdle)).pc = PC.waitRestart ∧
     (step cfgW (step cfgW sSearching (Action.miner envIdle))
        (Action.miner envIdle)).subCount = sSearching.subCount + 1) ∧
    (∀ (t : GState) (e : MinerEnv), t.pc ≠ PC.searching →
      (step cfgW t (Action.miner e)).subCount = t.subCount) :=
  submit_once_then_await cfgW sSearching envIdle envIdle
    (by decide) (by decide) (by decide) (by decide) (by decide)

/-- The state after the code-1 submission response: the miner thread has
executed `sys.exit(0)`. -/
def sTerminated : GState := step cfgW sSubmittedCode1 (Action.miner envIdle)

/-- A websocket notification matching `cfgW`: contract "c", event id 1. -/
def msgMatch : PyVal :=
  PyVal.dict [("result", PyVal.dict [("event", PyVal.dict [("contract_event",
    PyVal.dict [("contract", PyVal.str_ "c"), ("id", PyVal.int_ 1)])])])]

/-- C5 (counterexample): the claim says the process exits cleanly on the
code-1 response, but `sys.exit(0)` at source line 298 raises `SystemExit`
inside the daemon miner thread, ending only that thread; concretely, after
the code-1 step the miner is terminated, yet the Event Listener — which
keeps the process alive in the main thread — still receives and acts on a
matching contract event, mutating the shared state (it sets the restart
event that was down).  The process has not terminated. -/
theorem code1_exit_leaves_process_alive :
    sTerminated.pc = PC.terminated ∧
    sTerminated.restartEvent = false ∧
    is_matching_event cfgW.contractHash cfgW.eventId msgMatch = true ∧
    (step cfgW sTerminated (Action.listener msgMatch)).restartEvent = true ∧
    (step cfgW sTerminated (Action.listener msgMatch)).pc = PC.terminated := by
  refine ⟨?_, ?_, ?_, ?_, ?_⟩ <;> decide

/-- C5 (amended): from the `submitted` state, with the result carrying one
of the interpreted return codes (0-4) or no recognized code at all, the
next miner step permanently stops the mining loop (the miner thread exits
via `sys.exit`, whose `SystemExit` ends only that daemon thread) exactly
when the code is the supply-exhausted code 1; for every other interpreted
code and for any unrecognized shape the solution is discarded and the loop
proceeds to await confirmation (`awaiting_confirmation := true`) without
stopping and without resubmitting; a stopped mining loop takes no further
miner steps and issues no further submissions — but the process itself
does not exit: the Event Listener keeps running and still reacts to
matching contract events. -/
theorem terminal_code_terminates (cfg : Config) (s : GState) (env : MinerEnv)
    (res : Option PyVal) (hpc : s.pc = PC.submitted)
    (hpr : s.pendingResult = some res)
    (hrec : ∀ c, res.bind code_of = some c →
      c = 0 ∨ c = 1 ∨ c = 2 ∨ c = 3 ∨ c = 4) :
    ((step cfg s (Action.miner env)).pc = PC.terminated ↔
      res.bind code_of = some 1) ∧
    (res.bind code_of ≠ some 1 →
      (step cfg s (Action.miner env)).pc = PC.waitRestart ∧
      (step cfg s (Action.miner env)).awaiting = true ∧
      (step cfg s (Action.miner env)).subCount = s.subCount) ∧
    (∀ (t : GState) (e : MinerEnv), t.pc = PC.terminated →
      step cfg t (Action.miner e) = t) ∧
    (∀ (t : GState) (msg : PyVal), t.pc = PC.terminated →
      is_matching_event cfg.contractHash cfg.eventId msg = true →
      (step cfg t (Action.listener msg)).pc = PC.terminated ∧
      (step cfg t (Action.listener msg)).restartEvent = true) := by
  have hiff := terminate_decision_iff res hrec
  have hlisten : ∀ (t : GState) (msg : PyVal), t.pc = PC.terminated →
      is_matching_event cfg.contractHash cfg.eventId msg = true →
      (step cfg t (Action.listener msg)).pc = PC.terminated ∧
      (step cfg t (Action.listener msg)).restartEvent = true := by
    intro t msg htt hmm
    have h2 : step cfg t (Action.listener msg) = listenerStep cfg t msg := rfl
    rw [h2]
    unfold listenerStep
    rw [if_pos hmm]
    exact ⟨htt, rfl⟩
  have h1 : step cfg s (Action.miner env) = minerStep cfg s env := rfl
  rw [h1, minerStep_submitted hpc hpr]
  by_cases ht : terminate_decision res
  · rw [if_pos ht]
    have hc1 : res.bind code_of = some 1 := hiff.mp ht
    refine ⟨?_, ?_, ?_, hlisten⟩
    · exact ⟨fun _ => hc1, fun _ => rfl⟩
    · intro hne
      exact absurd hc1 hne
    · intro t e htt
      exact minerStep_terminated htt
  · rw [if_neg ht]
    have hc1 : res.bind code_of ≠ some 1 := by
      intro hc
      exact ht (hiff.mpr hc)
    refine ⟨?_, ?_, ?_, hlisten⟩
    · constructor
      · intro hcontra
        exact absurd hcontra (by intro hx; exact PC.noConfusion hx)
      · intro hc
        exact absurd hc hc1
    · intro _
      exact ⟨rfl, rfl, rfl⟩
    · intro t e htt
      exact minerStep_terminated htt

/-- C5 (witness): the theorem applied to the concrete submitted state
whose result carries return code 1: the miner step stops the mining loop,
and the listener still reacts to matching events afterwards. -/
theorem terminal_code_terminates_witness :
    ((step cfgW sSubmittedCode1 (Action.miner envIdle)).pc = PC.terminated ↔
      (some resCode1).bind code_of = some 1) ∧
    ((some resCode1).bind code_of ≠ some 1 →
      (step cfgW sSubmittedCode1 (Action.miner envIdle)).pc = PC.waitRestart ∧
      (step cfgW sSubmittedCode1 (Action.miner envIdle)).awaiting = true ∧
      (step cfgW sSubmittedCode1 (Action.miner envIdle)).subCount
        = sSubmittedCode1.subCount) ∧
    (∀ (t : GState) (e : MinerEnv), t.pc = PC.terminated →
      step cfgW t (Action.miner e) = t) ∧
    (∀ (t : GState) (msg : PyVal), t.pc = PC.terminated →
      is_matching_event cfgW.contractHash cfgW.eventId msg = true →
      (step cfgW t (Action.listener msg)).pc = PC.terminated ∧
      (step cfgW t (Action.listener msg)).restartEvent = true) :=
  terminal_code_terminates cfgW sSubmittedCode1 envIdle (some resCode1)
    (by decide) rfl
    (fun c h => by
      rw [show (some resCode1).bind code_of = some 1 from rfl] at h
      cases h
      exact Or.inr (Or.inl rfl))

/-- A configuration whose double-hash yields the all-255 digest, so no
positive difficulty above 1 is met: the search always misses. -/
def cfgMiss : Config :=
  { blake3h := fun _ => List.replicate 32 0
    sha3h := fun _ => List.replicate 32 255
    addressBytes := []
    contractHash := "c"
    eventId := 1 }

/-- A searching state holding the largest encodable nonce. -/
def sNonceMax : GState :=
  { restartEvent := false, awaiting := false, pc := PC.searching,
    blockNumber := 0, difficulty := 2, prevHash := List.replicate 32 0,
    ts := 0, headerHash := [], nonce := 2 ^ 64 - 1, pendingResult := none,
    subCount := 0 }

/-- A searching state with a small nonce, for the C9 witness. -/
def sNonceSmall : GState :=
  { restartEvent := false, awaiting := false, pc := PC.searching,
    blockNumber := 0, difficulty := 2, prevHash := List.replicate 32 0,
    ts := 0, headerHash := [], nonce := 5, pendingResult := none,
    subCount := 0 }

/-- C9 (counterexample): the nonce increment does not wrap modulo 2^64: a
miss at nonce 2^64 - 1 produces the nonce 2^64, and the next hash attempt
crashes the miner thread (the `struct.pack` failure is raised outside the
`try` block), refuting "never produces a value >= 2^64 and never fails". -/
theorem nonce_overflow_crashes :
    (step cfgMiss sNonceMax (Action.miner envIdle)).nonce = 2 ^ 64 ∧
    2 ^ 64 ≤ (step cfgMiss sNonceMax (Action.miner envIdle)).nonce ∧
    (step cfgMiss (step cfgMiss sNonceMax (Action.miner envIdle))
      (Action.miner envIdle)).pc = PC.crashed := by
  refine ⟨?_, ?_, ?_⟩ <;> decide

/-- C9 (amended): on every miss the nonce is incremented by exactly one
with no modular wrap (Python integers are unbounded); the 8-byte nonce
encoding succeeds exactly for nonces below 2^64, and a searching step at a
nonce ≥ 2^64 crashes the miner thread instead of wrapping. -/
theorem nonce_increment_unbounded (cfg : Config) (s : GState) (env : MinerEnv)
    (hpc : s.pc = PC.searching) (hev : s.restartEvent = false)
    (hn : s.nonce < 2 ^ 64)
    (hm : meets_difficulty (sha3_256d cfg.sha3h (s.headerHash ++ le_bytes 8 s.nonce))
        s.difficulty = some false) :
    (step cfg s (Action.miner env)).nonce = s.nonce + 1 ∧
    (∀ m : Nat, (pack_le_u64 m).isSome ↔ m < 2 ^ 64) ∧
    (∀ (t : GState) (e : MinerEnv), t.pc = PC.searching → t.restartEvent = false →
      2 ^ 64 ≤ t.nonce → (step cfg t (Action.miner e)).pc = PC.crashed) := by
  have hp : pack_le_u64 s.nonce = some (le_bytes 8 s.nonce) := by
    unfold pack_le_u64
    rw [if_pos hn]
  refine ⟨?_, ?_, ?_⟩
  · have h1 : step cfg s (Action.miner env) = minerStep cfg s env := rfl
    rw [h1, minerStep_searching_miss hpc hev hp hm]
    by_cases hrep : env.reportDue
    · rw [if_pos hrep]
    · rw [if_neg hrep]
  · intro m
    unfold pack_le_u64
    by_cases hlt : m < 2 ^ 64
    · rw [if_pos hlt]
      simpa using hlt
    · rw [if_neg hlt]
      simpa using hlt
  · intro t e htpc htev htn
    have hpk : pack_le_u64 t.nonce = none := by
      unfold pack_le_u64
      rw [if_neg (by omega)]
    have h1 : step cfg t (Action.miner e) = minerStep cfg t e := rfl
    rw [h1, minerStep_searching_packFail htpc htev hpk]

/-- C9 (witness): the amended theorem applied to the concrete searching
state at nonce 5 on difficulty 2 with an all-255 double-hash: the miss
increments the nonce to 6. -/
theorem nonce_increment_unbounded_witness :
    (step cfgMiss sNonceSmall (Action.miner envIdle)).nonce = sNonceSmall.nonce + 1 ∧
    (∀ m : Nat, (pack_le_u64 m).isSome ↔ m < 2 ^ 64) ∧
    (∀ (t : GState) (e : MinerEnv), t.pc = PC.searching → t.restartEvent = false →
      2 ^ 64 ≤ t.nonce → (step cfgMiss t (Action.miner e)).pc = PC.crashed) :=
  nonce_increment_unbounded cfgMiss sNonceSmall envIdle
    (by decide) (by decide) (by decide) (by decide)

/-- C10: whenever a miner step enters `Searching` from outside it (a fresh
search cycle), the initial nonce is exactly the `random.randint(0, 2^32)`
draw, which always lies in the inclusive range [0, 2^32]; the upper bound
2^32 itself is attainable. -/
theorem initial_nonce_range (cfg : Config) (s : GState) (env : MinerEnv)
    (hpc : s.pc ≠ PC.searching)
    (hs : (step cfg s (Action.miner env)).pc = PC.searching) :
    (step cfg s (Action.miner env)).nonce = randint 0 (2 ^ 32) env.seed ∧
    (step cfg s (Action.miner env)).nonce ≤ 2 ^ 32 ∧
    (∀ seed : Nat, randint 0 (2 ^ 32) seed ≤ 2 ^ 32) ∧
    randint 0 (2 ^ 32) (2 ^ 32) = 2 ^ 32 := by
  have hbound : ∀ seed : Nat, randint 0 (2 ^ 32) seed ≤ 2 ^ 32 := by
    intro seed
    unfold randint
    have hlt : seed % (2 ^ 32 - 0 + 1) < 2 ^ 32 - 0 + 1 :=
      Nat.mod_lt _ (by norm_num)
    omega
  have htop : randint 0 (2 ^ 32) (2 ^ 32) = 2 ^ 32 := by
    unfold randint
    norm_num
  have h1 : step cfg s (Action.miner env) = minerStep cfg s env := rfl
  rw [h1] at hs ⊢
  rcases minerStep_cases cfg s env with heq | ⟨hp, heq⟩ | ⟨hp, heq⟩ |
      ⟨hp, ha2, b, d, p, heq⟩ | ⟨hp, ha2, b, d, p, hh, heq⟩ | ⟨hp, heq⟩ |
      ⟨hp, heq⟩ | ⟨hp, heq⟩ | ⟨hp, heq | heq⟩ | ⟨hp, heq⟩ | ⟨hp, heq⟩ <;>
    rw [heq] at hs ⊢ <;>
    first
      | exact ⟨rfl, hbound env.seed, hbound, htop⟩
      | exact absurd hs hpc
      | exact absurd hp hpc
      | exact absurd hs (by intro hx; exact PC.noConfusion hx)

/-- C10 (witness): the theorem applied to the concrete sync step out of
`checkAwait`: the fresh search starts at `randint 0 (2^32) 0 = 0 ≤ 2^32`. -/
theorem initial_nonce_range_witness :
    (step cfgW (step cfgW (initState 0) (Action.miner envIdle))
        (Action.miner envSync)).nonce = randint 0 (2 ^ 32) envSync.seed ∧
    (step cfgW (step cfgW (initState 0) (Action.miner envIdle))
        (Action.miner envSync)).nonce ≤ 2 ^ 32 ∧
    (∀ seed : Nat, randint 0 (2 ^ 32) seed ≤ 2 ^ 32) ∧
    randint 0 (2 ^ 32) (2 ^ 32) = 2 ^ 32 :=
  initial_nonce_range cfgW (step cfgW (initState 0) (Action.miner envIdle))
    envSync (by decide) (by decide)

end XelisMiner

